import Mathlib

/-!
Verification of the sequelize-backed datastore adapter (`index.js`).

The development shallow-embeds the adapter's pure request-processing core:
the value transcoder (`decodeFromDialect` / `encodeToDialect`), the scan
query builder (`_scan` up to the point where the built `findParams` object
is handed to the backend), and `_save`.  JavaScript records are embedded as
ordered association lists (the iteration order of `Object.keys` is insertion
order), JavaScript values as the inductive `JVal`, and thrown exceptions /
rejected promises as `Except`.  The backend (`table.findAll`, `table.create`)
is only ever invoked on a successfully built plan, so "the backend is never
queried" corresponds to the builder returning `Except.error`.
-/

set_option linter.unusedVariables false
set_option linter.unreachableTactic false
set_option linter.unusedTactic false

namespace Squeakquel

/-- JavaScript values as they appear in the adapter's records and requests.
`jsonText v` models a string cell holding the text `JSON.stringify v`
produced by the external JSON library: the serialization is kept abstract
as the value it denotes (stringify is injective on the JSON-serializable
values modelled here, so the text determines `v` and conversely).  Numbers
are modelled by integers; the adapter never computes with numeric values. -/
inductive JVal where
  | null : JVal
  | bool (b : Bool) : JVal
  | num (n : Int) : JVal
  | str (s : String) : JVal
  | arr (xs : List JVal) : JVal
  | obj (fs : List (String × JVal)) : JVal
  | jsonText (v : JVal) : JVal
deriving Repr

/-- A record / row: a JavaScript object, i.e. an insertion-ordered
association list with (in well-formed objects) unique keys. -/
abbrev Record := List (String × JVal)

/-- JavaScript property assignment `o[k] = v`: an existing key keeps its
position and is overwritten, a new key is appended. -/
def setKey {α : Type} (l : List (String × α)) (k : String) (v : α) : List (String × α) :=
  if l.any (fun p => p.1 = k) then
    l.map (fun p => if p.1 = k then (k, v) else p)
  else
    l ++ [(k, v)]

/-- JavaScript truthiness of the modelled values. -/
def jsTruthy : JVal → Bool
  | .null => false
  | .bool b => b
  | .num n => n ≠ 0
  | .str s => s ≠ ""
  | .arr _ => true
  | .obj _ => true
  | .jsonText _ => true

/-- Truthiness of an optional string-valued configuration entry
(`undefined` is falsy, and so is the empty string). -/
def optTruthy : Option String → Bool
  | none => false
  | some s => s ≠ ""

/-- Model of the external library call `JSON.stringify v`: the serialized
text is represented abstractly by `JVal.jsonText v`. -/
def jsonStringify (v : JVal) : JVal := .jsonText v

/-- Model of the external library call `JSON.parse`.  Parsing the text
produced by `jsonStringify` recovers the serialized value.  `JSON.parse`
coerces non-string arguments to text first, so a stored `null`, boolean or
number parses to itself; an arbitrary plain string cell is treated as
unparseable text (`none` models the thrown `SyntaxError`). -/
def jsonParse : JVal → Option JVal
  | .jsonText v => some v
  | .null => some .null
  | .bool b => some (.bool b)
  | .num n => some (.num n)
  | _ => none

/-- Concrete rendering of a JSON-serializable value, connecting the
abstract `jsonText` cells to literal serialized text (for example the
application value `[1,2,3]` is stored as the text "[1,2,3]"). -/
def renderJson : JVal → String
  | .null => "null"
  | .bool true => "true"
  | .bool false => "false"
  | .num n => toString n
  | .str s => "\"" ++ s ++ "\""
  | .arr xs => "[" ++ String.intercalate "," (xs.attach.map (fun x => renderJson x.1)) ++ "]"
  | .obj fs =>
      "\x7b" ++
        String.intercalate ","
          (fs.attach.map (fun f => "\"" ++ f.1.1 ++ "\":" ++ renderJson f.1.2)) ++
      "\x7d"
  | .jsonText v => renderJson v
decreasing_by
  · simp_wf
    exact Nat.lt_add_left 1 (List.sizeOf_lt_of_mem x.2)
  · simp_wf
    obtain ⟨⟨k, v⟩, hm⟩ := f
    have h1 := List.sizeOf_lt_of_mem hm
    simp only [Prod.mk.sizeOf_spec] at h1
    simp only []
    omega
  · simp_wf

/-- A model descriptor as supplied by the schema registry: `fields` maps a
field name to its declared semantic type tag (the adapter compares the tag
against the literals "array", "object" and "boolean"), and
`indexes`/`rangeKeys` are the optional parallel index lists. -/
structure Model where
  fields : List (String × String)
  indexes : Option (List String) := none
  rangeKeys : Option (List String) := none
deriving Repr

/-- Declared type of a field: `fields[fieldName]` followed by reading
`.type`, with `fields[fieldName] || \x7b\x7d` giving no type for an
unknown field. -/
def fieldTypeOf (fields : List (String × String)) (name : String) : Option String :=
  List.lookup name fields

/-- Decoding of one field of a row, mirroring the body of the `forEach`
loop in `decodeFromDialect`: array/object fields are `JSON.parse`d (a parse
failure propagates as a thrown error, modelled by `none` at the row level),
a textual '1'/'0' in a boolean field becomes a native boolean, and a field
whose resulting value is exactly `null` is deleted (inner `none`). -/
def decodeEntry (fields : List (String × String)) (e : String × JVal) :
    Option (Option (String × JVal)) :=
  let fieldType := fieldTypeOf fields e.1
  let step1 : Option JVal :=
    if fieldType = some "array" || fieldType = some "object" then
      jsonParse e.2
    else
      some e.2
  match step1 with
  | none => none
  | some v1 =>
    let v2 :=
      if fieldType = some "boolean" then
        match v1 with
        | .str s => if s = "1" then .bool true else if s = "0" then .bool false else .str s
        | w => w
      else v1
    match v2 with
    | .null => some none
    | w => some (some (e.1, w))

/-- Decoding of a whole non-null row: each key of the row is processed by
`decodeEntry`; a thrown parse error aborts the decode (`none`), deleted
keys are dropped, all other keys keep their order and decoded value. -/
def decodeRow (fields : List (String × String)) : Record → Option Record
  | [] => some []
  | e :: rest =>
    match decodeEntry fields e with
    | none => none
    | some none => decodeRow fields rest
    | some (some e') =>
      match decodeRow fields rest with
      | none => none
      | some r => some (e' :: r)

/-- Translation of `decodeFromDialect(dialect, content, model)`: a `null`
row resolves to `null` (outer `some none`); otherwise the row's JSON image
is decoded field by field.  The `dialect` argument is kept from the source
signature; the current source never branches on it. -/
def decodeFromDialect (dialect : String) (content : Option Record) (model : Model) :
    Option (Option Record) :=
  match content with
  | none => some none
  | some row =>
    match decodeRow model.fields row with
    | none => none
    | some r => some (some r)

/-- Translation of `encodeToDialect(dialect, content, model)`: every field
whose declared type is array or object is `JSON.stringify`ed, all other
fields pass through unchanged.  (The `Promise.all` await of pending field
values is invisible here: modelled values are already resolved.) -/
def encodeToDialect (dialect : String) (content : Record) (model : Model) : Record :=
  content.map (fun e =>
    let fieldType := fieldTypeOf model.fields e.1
    if fieldType = some "array" || fieldType = some "object" then
      (e.1, jsonStringify e.2)
    else
      e)

/-- Restriction of a record to its fields declared array or object, used to
state the transcoder round-trip claim "equal on every field modeled as
array or object". -/
def complexFields (fields : List (String × String)) (r : Record) : Record :=
  r.filter (fun e =>
    fieldTypeOf fields e.1 = some "array" || fieldTypeOf fields e.1 = some "object")

/-- Sequelize operators used by the builder (`Sequelize.Op.*`). -/
inductive Op where
  | opIn
  | like
  | iLike
  | notLike
  | notILike
  | eq
  | gt
  | lt
  | gte
  | lte
deriving Repr, DecidableEq

/-- Column expression inside a generated correlated subquery
(`Sequelize.col` / `Sequelize.cast` / `Sequelize.fn`). -/
inductive SubCol where
  | col (name : String)
  | cast (e : SubCol) (ty : String)
  | fn (name : String) (arg : SubCol)
deriving Repr, DecidableEq

/-- The argument structure of a `QueryGenerator.selectQuery` call used to
build a correlated subquery: the generated SQL text (after the trailing
semicolon is sliced off and the text is wrapped in `literal`) is determined
by this data. -/
structure SubQuery where
  tableName : String
  tableAs : String
  attributes : List SubCol
  whereConds : List (String × Op × SubCol)
deriving Repr, DecidableEq

/-- Column expression of a projected attribute. -/
inductive ColExpr where
  | col (name : String)
  | cast (e : ColExpr) (ty : String)
  | fn (name : String) (arg : ColExpr)
  | literalSub (sub : SubQuery)
deriving Repr, DecidableEq

/-- Value of one key of `findParams.where`: a plain equality value, an
object of operator conditions, or an operator condition against a literal
subquery. -/
inductive WhereVal where
  | plain (v : JVal)
  | ops (conds : List (Op × JVal))
  | opLit (o : Op) (sub : SubQuery)
deriving Repr

/-- The sort key as it stands when the order is emitted: a plain string key
or a `Sequelize.col` wrapping of it; `none` models a JavaScript
`undefined` key (a range-key list shorter than the index list). -/
inductive SortKeyV where
  | key (s : Option String)
  | colOf (s : Option String)
deriving Repr, DecidableEq

/-- One element of a `findParams.attributes` array: a plain attribute name
or an aliased column expression. -/
inductive AttrItem where
  | plain (name : String)
  | aliased (e : ColExpr) (nickname : String)
deriving Repr, DecidableEq

/-- The `findParams.attributes` value.  In the source it is either an
array of items, a plain object carrying only an `exclude` list, or an
array that additionally received an `exclude` property. -/
structure AttrSpec where
  items : Option (List AttrItem)
  exclude : Option (List String)
deriving Repr, DecidableEq

/-- The validated query plan handed to `table.findAll` /
`table.findAndCountAll`.  The `where` object is split into its
string-keyed entries and the optional `Op.or` entry. -/
structure FindParams where
  whereEntries : List (String × WhereVal) := []
  whereOr : Option (List (String × Op × JVal)) := none
  limit : Option Int := none
  offset : Option Int := none
  attributes : Option AttrSpec := none
  order : Option (SortKeyV × String) := none
  group : Option String := none
deriving Repr

/-- Errors thrown or rejected by the builder before the backend is
queried, mirroring the source's message texts: "Invalid table name ...",
"Invalid distinct field ...", "Invalid param ...", "Invalid search field
...", "Invalid sortBy ...".  `typeError` models the TypeError raised when
`aggregationField` pushes onto an attributes value that is not an array. -/
inductive ScanError where
  | invalidTable (name : String)
  | invalidDistinct (value : JVal)
  | invalidParam (name : String)
  | invalidSearchField (name : String)
  | invalidSortBy (name : String)
  | typeError
deriving Repr

/-- Pagination parameters. -/
structure Paginate where
  count : Int
  page : Int
deriving Repr, DecidableEq

/-- A `search.field` value: a single name or a list of names. -/
inductive FieldSel where
  | one (s : String)
  | many (l : List String)
deriving Repr, DecidableEq

/-- A `search.keyword` value: a single keyword or a list of keywords. -/
inductive KeywordSel where
  | one (v : JVal)
  | many (l : List JVal)
deriving Repr

/-- A scan request's `search` spec. -/
structure SearchSpec where
  field : Option FieldSel := none
  keyword : Option KeywordSel := none
  inverse : Bool := false
deriving Repr

/-- A scan request (`config` of `_scan`).  Optional string entries model
absent-or-string configuration values; `groupBy`/`exclude` are present
exactly when the source's `Array.isArray` test succeeds. -/
structure ScanConfig where
  table : String
  paginate : Option Paginate := none
  params : Option (List (String × JVal)) := none
  search : Option SearchSpec := none
  sort : Option String := none
  sortBy : Option String := none
  startTime : Option String := none
  endTime : Option String := none
  timeKey : Option String := none
  groupBy : Option (List String) := none
  exclude : Option (List String) := none
  aggregationField : Option String := none
  getCount : Bool := false
deriving Repr

/-- Translation of `_fieldInvalid`: true when the field is not one of the
model's field names. -/
def _fieldInvalid (validFields : List String) (field : String) : Bool :=
  ! validFields.contains field

/-- The `_fieldInvalid` check applied to an arbitrary parameter value, as
done for the `distinct` pseudo-parameter: `validFields.includes(v)`
compares with strict equality, so any non-string value is invalid. -/
def fieldInvalidJ (validFields : List String) (v : JVal) : Bool :=
  match v with
  | .str s => _fieldInvalid validFields s
  | _ => true

/-- Modelled from the spec: the supported inequality tokens of a scalar
parameter value, from "Scalar parameter whose value is the literal pattern
`<op>:<value>` where `<op>` is one of a small set of inequality tokens".
The repository's test suite pins the token set to `gt` and `lt`; the code
implementing this is exercised by the tests but missing from the source
revision provided. -/
def inequalityTok (s : String) : Option (Op × String) :=
  match s.data with
  | 'g' :: 't' :: ':' :: rest => some (.gt, String.mk rest)
  | 'l' :: 't' :: ':' :: rest => some (.lt, String.mk rest)
  | _ => none

/-- Modelled from the spec: a scalar parameter value becomes a relational
comparison predicate when it carries an inequality token (the textual
remainder after the token is the comparand, not coerced to a number), and
a plain equality predicate otherwise. -/
def scalarParamCond (v : JVal) : WhereVal :=
  match v with
  | .str s =>
    match inequalityTok s with
    | some (o, rest) => .ops [(o, .str rest)]
    | none => .plain (.str s)
  | w => .plain w

/-- Modelled from the spec: selection of the pattern-match operator — the
case-insensitive variant on the postgres dialect, and the negated variant
(NOT LIKE / NOT ILIKE) when the search spec's `inverse` flag is set.  The
source revision provided computes only the non-inverse half of this
choice; the inverse half is exercised by the repository's tests. -/
def searchOperatorFor (dialect : String) (inverse : Bool) : Op :=
  if dialect = "postgres" then (if inverse then .notILike else .iLike)
  else (if inverse then .notLike else .like)

/-- Builder state threaded through `_scan`: the accumulated `findParams`
plus the `sortKey` local variable (`sortIsCol` records whether the group-by
branch rewrapped it in `Sequelize.col`). -/
structure BuildSt where
  fp : FindParams
  sortKey : Option String
  sortIsCol : Bool := false
deriving Repr

/-- Result of the per-parameter index check: `some rk` when the parameter
name occurs in `model.indexes` (with `rk` the corresponding `rangeKeys`
entry, `none` inside when that list is too short), `none` when it does
not or when the model lacks `indexes`/`rangeKeys`. -/
def indexHit (model : Model) (paramName : String) : Option (Option String) :=
  match model.indexes, model.rangeKeys with
  | some idx, some rks =>
    match idx.findIdx? (fun x => x = paramName) with
    | some i => some (rks.get? i)
    | none => none
  | _, _ => none

/-- Translation of the body of the `forEach` over `config.params`: an
array value becomes a set-membership condition (with no validation of the
parameter name), the `distinct` pseudo-parameter validates its value and
switches the projection, any other scalar validates the parameter name and
adds its condition; afterwards an index-matching parameter swaps the sort
key for its range key. -/
def processParam (validFields : List String) (model : Model) (st : BuildSt)
    (kv : String × JVal) : Except ScanError BuildSt := do
  let paramName := kv.1
  let paramValue := kv.2
  let st1 : BuildSt ←
    match paramValue with
    | .arr l =>
      .ok { st with fp :=
        { st.fp with whereEntries := setKey st.fp.whereEntries paramName (.ops [(.opIn, .arr l)]) } }
    | v =>
      if paramName = "distinct" then
        match v with
        | .str s =>
          if _fieldInvalid validFields s then
            .error (.invalidDistinct (.str s))
          else
            let a : AttrSpec :=
              { items := some [.aliased (.fn "DISTINCT" (.col s)) s], exclude := none }
            .ok { st with fp := { st.fp with attributes := some a } }
        | w => .error (.invalidDistinct w)
      else
        if _fieldInvalid validFields paramName then
          .error (.invalidParam paramName)
        else
          .ok { st with fp :=
            { st.fp with whereEntries := setKey st.fp.whereEntries paramName (scalarParamCond v) } }
  match indexHit model paramName with
  | some rk => pure { st1 with sortKey := rk }
  | none => pure st1

/-- The `config.params` block of `_scan` (the emptiness guard on
`Object.keys` is invisible here: folding over no keys changes nothing). -/
def paramsStep (validFields : List String) (model : Model) (st : BuildSt)
    (cfg : ScanConfig) : Except ScanError BuildSt :=
  match cfg.params with
  | some ps => ps.foldlM (processParam validFields model) st
  | none => .ok st

/-- Coercion of `search.field` to the list iterated by the multi-search
branch. -/
def fieldListOf : FieldSel → List String
  | .one s => [s]
  | .many l => l

/-- Coercion of `search.keyword` to the list iterated by the multi-search
branch. -/
def keywordListOf : KeywordSel → List JVal
  | .one v => [v]
  | .many l => l

/-- Truthiness of `search.field` (an array is always truthy). -/
def fieldSelTruthy : FieldSel → Bool
  | .one s => s ≠ ""
  | .many _ => true

/-- Truthiness of `search.keyword` (an array is always truthy). -/
def keywordSelTruthy : KeywordSel → Bool
  | .one v => jsTruthy v
  | .many _ => true

/-- Translation of `Number.isInteger(searchKeywords[0])`: the modelled
numbers are integral, and a missing first keyword (`undefined`) or any
non-number is not an integer. -/
def isIntegerKeyword : Option JVal → Bool
  | some (.num _) => true
  | _ => false

/-- Body of the `searchFields.forEach` loop: an invalid field name throws,
a valid one pushes one `(field, operator, keyword)` disjunct per keyword. -/
def processSearchField (validFields : List String) (keywords : List JVal) (op : Op)
    (acc : List (String × Op × JVal)) (field : String) :
    Except ScanError (List (String × Op × JVal)) :=
  if _fieldInvalid validFields field then .error (.invalidSearchField field)
  else .ok (acc ++ keywords.map (fun kw => (field, op, kw)))

/-- The `config.search` block of `_scan`: active when both `field` and
`keyword` are present and truthy; the multi branch (either side a list)
collects OR disjuncts, degrading the operator to equality when the first
keyword is an integer; the scalar branch sets the single field's pattern
condition directly. -/
def searchStep (dialect : String) (validFields : List String) (st : BuildSt)
    (cfg : ScanConfig) : Except ScanError BuildSt :=
  match cfg.search with
  | none => .ok st
  | some sp =>
    match sp.field, sp.keyword with
    | some fsel, some ksel =>
      if fieldSelTruthy fsel && keywordSelTruthy ksel then
        let searchOperator := searchOperatorFor dialect sp.inverse
        match fsel, ksel with
        | .one f, .one kw =>
          if _fieldInvalid validFields f then .error (.invalidSearchField f)
          else .ok { st with fp :=
            { st.fp with whereEntries := setKey st.fp.whereEntries f (.ops [(searchOperator, kw)]) } }
        | fsel', ksel' =>
          let searchKeywords := keywordListOf ksel'
          let op := if isIntegerKeyword searchKeywords.head? then Op.eq else searchOperator
          do
            let orList ← (fieldListOf fsel').foldlM
              (processSearchField validFields searchKeywords op) []
            pure { st with fp := { st.fp with whereOr := some orList } }
      else .ok st
    | _, _ => .ok st

/-- Effect of `Object.assign(findParams.where[timeKey], lte-condition)` on
the existing value of the time key: an operator object gains the `lte`
condition; a truthy plain value is a primitive, so the assignment mutates
a transient wrapper and the condition is lost; a falsy plain value was
first replaced by an empty object.  (An `opLit` value cannot occur here:
the group-by branch that produces it runs after the time block.) -/
def mergeEndTime (cur : Option WhereVal) (t : String) : WhereVal :=
  match cur with
  | some (.ops l) => .ops (l ++ [(.lte, .str t)])
  | some (.plain v) => if jsTruthy v then .plain v else .ops [(.lte, .str t)]
  | some (.opLit o sub) => .opLit o sub
  | none => .ops [(.lte, .str t)]

/-- The `startTime`/`endTime` block of `_scan`: range conditions on the
time key (`config.timeKey || 'createTime'`). -/
def timeStep (st : BuildSt) (cfg : ScanConfig) : BuildSt :=
  let timeKey :=
    match cfg.timeKey with
    | some s => if s ≠ "" then s else "createTime"
    | none => "createTime"
  let st1 :=
    if optTruthy cfg.startTime then
      let w := setKey st.fp.whereEntries timeKey (.ops [(.gte, .str (cfg.startTime.getD ""))])
      { st with fp := { st.fp with whereEntries := w } }
    else st
  if optTruthy cfg.endTime then
    let cur := List.lookup timeKey st1.fp.whereEntries
    let w := setKey st1.fp.whereEntries timeKey (mergeEndTime cur (cfg.endTime.getD ""))
    { st1 with fp := { st1.fp with whereEntries := w } }
  else st1

/-- The `config.sortBy` block of `_scan`: a truthy `sortBy` must be a
model field and becomes the sort key. -/
def sortByStep (validFields : List String) (st : BuildSt) (cfg : ScanConfig) :
    Except ScanError BuildSt :=
  match cfg.sortBy with
  | some s =>
    if s ≠ "" then
      if _fieldInvalid validFields s then .error (.invalidSortBy s)
      else .ok { st with sortKey := some s }
    else .ok st
  | none => .ok st

/-- The exclude-only block of `_scan`: without a `groupBy` array, an
`exclude` array is recorded on the attributes object (created empty when
absent). -/
def excludeStep (st : BuildSt) (cfg : ScanConfig) : BuildSt :=
  match cfg.groupBy, cfg.exclude with
  | none, some ex =>
    let attrs : AttrSpec :=
      match st.fp.attributes with
      | none => { items := none, exclude := some ex }
      | some a => { a with exclude := some ex }
    { st with fp := { st.fp with attributes := some attrs } }
  | _, _ => st

/-- The correlated subquery substituted for the `trusted` column in a
group-by projection (selects the maximum integer-cast `trusted` among rows
with the same `name` and `namespace`). -/
def trustedSubQuery (tableName : String) : SubQuery :=
  { tableName := tableName
    tableAs := "t1"
    attributes := [.fn "MAX" (.cast (.col "trusted") "integer")]
    whereConds := [("name", .eq, .col (tableName ++ ".name")),
                   ("namespace", .eq, .col (tableName ++ ".namespace"))] }

/-- Projection of one included field in the group-by branch: the raw
column, replaced by the trusted subquery for the literal field `trusted`,
then cast to integer when the field is declared boolean. -/
def groupAttr (tableName : String) (fields : List (String × String)) (field : String) :
    AttrItem :=
  let col0 : ColExpr := .col field
  let col1 := if field = "trusted" then ColExpr.literalSub (trustedSubQuery tableName) else col0
  let col2 := if fieldTypeOf fields field = some "boolean" then ColExpr.cast col1 "integer" else col1
  .aliased col2 field

/-- The correlated max-id-per-group subquery of the group-by branch: the
maximum `t.id` among rows agreeing with the outer row on every `groupBy`
field (seeded with `id >= outer id`, each group field overwriting an
existing key as JavaScript assignment does). -/
def groupSubQuery (tableName : String) (groups : List String) : SubQuery :=
  { tableName := tableName
    tableAs := "t"
    attributes := [.fn "MAX" (.col "t.id")]
    whereConds :=
      groups.foldl
        (fun w v => setKey w v (.eq, SubCol.col (tableName ++ "." ++ v)))
        [("id", .gte, SubCol.col (tableName ++ ".id"))] }

/-- The `config.groupBy` block of `_scan`: the projection becomes every
non-excluded field wrapped per `groupAttr`, the sort key is rewrapped in
`Sequelize.col`, and the whole `where` object is replaced by the single
predicate `id = (max-id-per-group subquery)`. -/
def groupByStep (tableName : String) (validFields : List String)
    (fields : List (String × String)) (st : BuildSt) (cfg : ScanConfig) : BuildSt :=
  match cfg.groupBy with
  | none => st
  | some gs =>
    let includedFields :=
      match cfg.exclude with
      | some ex => validFields.filter (fun f => ! ex.contains f)
      | none => validFields
    let attrs : AttrSpec :=
      { items := some (includedFields.map (groupAttr tableName fields)), exclude := none }
    { st with
      fp := { st.fp with
        attributes := some attrs
        whereEntries := [("id", .opLit .eq (groupSubQuery tableName gs))]
        whereOr := none }
      sortIsCol := true }

/-- The order block of `_scan`: `[[sortKey, 'ASC']]` when `config.sort`
is the literal "ascending", `[[sortKey, 'DESC']]` otherwise. -/
def orderStep (st : BuildSt) (cfg : ScanConfig) : FindParams :=
  let dir := if cfg.sort = some "ascending" then "ASC" else "DESC"
  let k := if st.sortIsCol then SortKeyV.colOf st.sortKey else SortKeyV.key st.sortKey
  { st.fp with order := some (k, dir) }

/-- The `config.aggregationField` block of `_scan`: pushes the field and a
COUNT alias onto the attributes array (a TypeError when the attributes
value is the exclude-only object, which has no `push`), groups by the
field, and deletes the order. -/
def aggregationStep (fp : FindParams) (cfg : ScanConfig) : Except ScanError FindParams :=
  match cfg.aggregationField with
  | some f =>
    if f ≠ "" then
      let a : AttrSpec :=
        match fp.attributes with
        | none => { items := some [], exclude := none }
        | some a0 => a0
      match a.items with
      | some l =>
        .ok { fp with
          attributes := some { a with items := some (l ++ [.plain f, .aliased (.fn "COUNT" (.col f)) "count"]) }
          group := some f
          order := none }
      | none => .error .typeError
    else .ok fp
  | none => .ok fp

/-- Translation of `_scan` up to the backend call: an unregistered table
rejects at once; otherwise the request is interpreted block by block in
source order (paginate, params, search, time range, sortBy, exclude,
groupBy, order, aggregation) into the `findParams` plan.  The backend
(`findAll` / `findAndCountAll`) receives the plan only when the result is
`Except.ok`, so a validation error means the backend is never queried. -/
def _scanBuild (pfx : String) (tables : List (String × Model)) (dialect : String)
    (cfg : ScanConfig) : Except ScanError FindParams :=
  match List.lookup cfg.table tables with
  | none => .error (.invalidTable cfg.table)
  | some model =>
    let tableName := pfx ++ cfg.table
    let validFields := model.fields.map Prod.fst
    let fp0 : FindParams :=
      match cfg.paginate with
      | some p => { limit := some p.count, offset := some (p.count * (p.page - 1)) }
      | none => {}
    let st0 : BuildSt := { fp := fp0, sortKey := some "id" }
    do
      let st1 ← paramsStep validFields model st0 cfg
      let st2 ← searchStep dialect validFields st1 cfg
      let st3 := timeStep st2 cfg
      let st4 ← sortByStep validFields st3 cfg
      let st5 := excludeStep st4 cfg
      let st6 := groupByStep tableName validFields model.fields st5 cfg
      aggregationStep (orderStep st6 cfg) cfg

/-- Translation of `_save`: an unregistered table rejects at once;
otherwise the params are encoded through the transcoder and handed to
`table.create`, and the resolved value is `row.get` with `plain` set —
the created row's stored values, not re-decoded through
`decodeFromDialect`.  The backend `create` is modelled as returning a row
holding exactly the inserted values (a real backend would add the
autoincremented primary key, which no claim here concerns). -/
def _save (tables : List (String × Model)) (dialect : String) (table : String)
    (params : Record) : Except ScanError Record :=
  match List.lookup table tables with
  | none => .error (.invalidTable table)
  | some model => .ok (encodeToDialect dialect params model)

/-- Field map of the `testModel` fixture of the repository's test suite
(each field name with its declared semantic type tag). -/
def testFields : List (String × String) :=
  [("id", "string"), ("str", "string"), ("date", "date"), ("num", "number"),
   ("bool", "boolean"), ("bin", "binary"), ("arr", "array"), ("obj", "object"),
   ("any", "any"), ("namespace", "string"), ("name", "string")]

/-- The `testModel` fixture: table `testModels`, one index and no range
keys. -/
def testModel : Model :=
  { fields := testFields, indexes := some ["str"], rangeKeys := none }

/-- The `job` fixture: table `jobs`, whose single index `name` carries the
range key `name`. -/
def jobModel : Model :=
  { fields := [("id", "string"), ("name", "string")],
    indexes := some ["name"], rangeKeys := some ["name"] }

/-- The registered tables of the fixtures. -/
def testTables : List (String × Model) :=
  [("testModels", testModel), ("jobs", jobModel)]

/-- Restatement of the claimed sort-key precedence in the claim's own
words, for comparison with the builder: the key defaults to "id", is
overridden by the range key of an index-matching filter parameter (the
last match winning), then by an explicit truthy `sortBy`, and the grouping
transformation rebinds the chosen key as a column expression. -/
def claimSortKeyName (model : Model) (cfg : ScanConfig) : Option String :=
  let fromIndex :=
    (cfg.params.getD []).foldl
      (fun acc kv =>
        match indexHit model kv.1 with
        | some rk => some rk
        | none => acc) none
  match cfg.sortBy with
  | some s =>
    if s ≠ "" then some s
    else match fromIndex with | some rk => rk | none => some "id"
  | none => match fromIndex with | some rk => rk | none => some "id"

/-- The claimed sort expression: the resolved key, as a column expression
when the request groups. -/
def claimSortExpr (model : Model) (cfg : ScanConfig) : SortKeyV :=
  if cfg.groupBy.isSome then .colOf (claimSortKeyName model cfg)
  else .key (claimSortKeyName model cfg)

/-- The claimed sort direction: descending unless the request's `sort` is
the literal "ascending". -/
def claimSortDir (cfg : ScanConfig) : String :=
  if cfg.sort = some "ascending" then "ASC" else "DESC"

/-- Validity of one `params` entry as the builder checks it: an
array-valued parameter is accepted without any check, the `distinct`
pseudo-parameter's value must name a model field, and any other scalar
parameter's name must be a model field. -/
def paramOK (vf : List String) (kv : String × JVal) : Prop :=
  match kv.2 with
  | .arr _ => True
  | _ =>
    if kv.1 = "distinct" then fieldInvalidJ vf kv.2 = false
    else _fieldInvalid vf kv.1 = false

/-- Validity of every `params` entry of a request. -/
def paramsOK (vf : List String) (cfg : ScanConfig) : Prop :=
  ∀ kv ∈ cfg.params.getD [], paramOK vf kv

/-- Validity of every search field of an active search spec (one whose
`field` and `keyword` are both present and truthy). -/
def searchFieldsOK (vf : List String) (cfg : ScanConfig) : Prop :=
  ∀ sp, cfg.search = some sp →
    ∀ fsel ksel, sp.field = some fsel → sp.keyword = some ksel →
      fieldSelTruthy fsel = true → keywordSelTruthy ksel = true →
      ∀ f ∈ fieldListOf fsel, _fieldInvalid vf f = false

/-- Validity of a truthy `sortBy`. -/
def sortByOK (vf : List String) (cfg : ScanConfig) : Prop :=
  ∀ s, cfg.sortBy = some s → s ≠ "" → _fieldInvalid vf s = false

/-- The descriptive content of a builder error: each "invalid field" error
names an identifier that is indeed not a model field. -/
def errNames (vf : List String) : ScanError → Prop
  | .invalidParam n => _fieldInvalid vf n = true
  | .invalidDistinct v => fieldInvalidJ vf v = true
  | .invalidSearchField n => _fieldInvalid vf n = true
  | .invalidSortBy n => _fieldInvalid vf n = true
  | _ => True

/-- A one-field model with an array field, used to exhibit the behaviour
of the transcoder round trip on a null value. -/
def modelC5 : Model := { fields := [("arr", "array")] }

theorem decodeEntry_some_ne_null (fields : List (String × String)) (e e' : String × JVal)
    (h : decodeEntry fields e = some (some e')) : e'.2 ≠ JVal.null := by
  simp only [decodeEntry] at h
  split at h
  · simp at h
  · split at h
    · simp at h
    · rename_i hne
      simp only [Option.some.injEq] at h
      subst h
      simpa using hne

theorem decodeEntry_key (fields : List (String × String)) (e e' : String × JVal)
    (h : decodeEntry fields e = some (some e')) : e'.1 = e.1 := by
  simp only [decodeEntry] at h
  split at h
  · simp at h
  · split at h
    · simp at h
    · simp only [Option.some.injEq] at h
      subst h
      rfl

theorem decodeEntry_complex (fields : List (String × String)) (k : String) (v : JVal)
    (hc : fieldTypeOf fields k = some "array" ∨ fieldTypeOf fields k = some "object")
    (hn : v ≠ JVal.null) :
    decodeEntry fields (k, .jsonText v) = some (some (k, v)) := by
  rcases hc with hc | hc <;>
    simp [decodeEntry, hc, jsonParse] <;>
    (cases v <;> simp_all)

theorem decodeEntry_noncomplex_ok (fields : List (String × String)) (e : String × JVal)
    (hc : ¬(fieldTypeOf fields e.1 = some "array" ∨ fieldTypeOf fields e.1 = some "object")) :
    decodeEntry fields e ≠ none := by
  have hcb : (decide (fieldTypeOf fields e.1 = some "array")
      || decide (fieldTypeOf fields e.1 = some "object")) ≠ true := by
    simpa using hc
  simp only [decodeEntry, if_neg hcb]
  split <;> simp

theorem decodeRow_no_null (fields : List (String × String)) :
    ∀ (row r : Record), decodeRow fields row = some r → ∀ e ∈ r, e.2 ≠ JVal.null := by
  intro row
  induction row with
  | nil =>
    intro r h e he
    simp only [decodeRow, Option.some.injEq] at h
    subst h
    simp at he
  | cons x rest ih =>
    intro r h e he
    simp only [decodeRow] at h
    split at h
    · simp at h
    · exact ih r h e he
    · rename_i e' he'
      split at h
      · simp at h
      · rename_i r' hr'
        simp only [Option.some.injEq] at h
        subst h
        rcases List.mem_cons.mp he with rfl | hmem
        · exact decodeEntry_some_ne_null fields x e he'
        · exact ih r' hr' e hmem

/-- C6: for every dialect, every non-null row and every model, the record
returned by decode contains no key bound to null: any field whose decoded
value is exactly null is removed entirely, so callers observe absence
rather than an explicit null. -/
theorem decode_no_null_values (dialect : String) (model : Model) (row r : Record)
    (h : decodeFromDialect dialect (some row) model = some (some r)) :
    ∀ e ∈ r, e.2 ≠ JVal.null := by
  have hr : decodeRow model.fields row = some r := by
    simp only [decodeFromDialect] at h
    split at h
    · simp at h
    · rename_i r' hr'
      simp only [Option.some.injEq] at h
      subst h
      exact hr'
  exact decodeRow_no_null model.fields row r hr

/-- C6 witness: decoding a concrete row with a null-valued key yields a
record whose remaining entry is not bound to null. -/
theorem decode_no_null_values_witness :
    (("bool", JVal.bool false) : String × JVal).2 ≠ JVal.null :=
  decode_no_null_values "sqlite" testModel [("bar", JVal.null), ("bool", JVal.str "0")]
    [("bool", JVal.bool false)] rfl ("bool", JVal.bool false) (by simp)

/-- C7: for every field declared boolean, decode maps a stored textual
'1' to native true and a stored textual '0' to native false, and leaves
every other textual stored representation of that field unmodified (shown
both for the per-field decoding step and end to end on a row). -/
theorem decode_boolean_normalization (dialect : String) (model : Model) (f s : String)
    (h : fieldTypeOf model.fields f = some "boolean") :
    decodeEntry model.fields (f, .str s) =
      some (some (f, if s = "1" then JVal.bool true
                     else if s = "0" then JVal.bool false else JVal.str s)) ∧
    decodeFromDialect dialect (some [(f, .str s)]) model =
      some (some [(f, if s = "1" then JVal.bool true
                      else if s = "0" then JVal.bool false else JVal.str s)]) := by
  have hent : decodeEntry model.fields (f, .str s) =
      some (some (f, if s = "1" then JVal.bool true
                     else if s = "0" then JVal.bool false else JVal.str s)) := by
    by_cases h1 : s = "1"
    · subst h1; simp [decodeEntry, h]
    · by_cases h0 : s = "0"
      · subst h0; simp [decodeEntry, h]
      · simp [decodeEntry, h, h1, h0]
  refine ⟨hent, ?_⟩
  simp [decodeFromDialect, decodeRow, hent]

/-- C7 witness: a boolean field holding the text "yes" is left unchanged
by decode. -/
theorem decode_boolean_normalization_witness :
    decodeEntry testModel.fields ("bool", .str "yes") =
      some (some ("bool", if "yes" = "1" then JVal.bool true
                          else if "yes" = "0" then JVal.bool false else JVal.str "yes")) ∧
    decodeFromDialect "sqlite" (some [("bool", .str "yes")]) testModel =
      some (some [("bool", if "yes" = "1" then JVal.bool true
                           else if "yes" = "0" then JVal.bool false else JVal.str "yes")]) :=
  decode_boolean_normalization "sqlite" testModel "bool" "yes" rfl

theorem complexFields_cons_pos (fields : List (String × String)) (e : String × JVal) (r : Record)
    (hc : fieldTypeOf fields e.1 = some "array" ∨ fieldTypeOf fields e.1 = some "object") :
    complexFields fields (e :: r) = e :: complexFields fields r := by
  have hcb : (decide (fieldTypeOf fields e.1 = some "array")
      || decide (fieldTypeOf fields e.1 = some "object")) = true := by simpa using hc
  simp [complexFields, List.filter_cons, hcb]

theorem complexFields_cons_neg (fields : List (String × String)) (e : String × JVal) (r : Record)
    (hc : ¬(fieldTypeOf fields e.1 = some "array" ∨ fieldTypeOf fields e.1 = some "object")) :
    complexFields fields (e :: r) = complexFields fields r := by
  have hcb : ¬((decide (fieldTypeOf fields e.1 = some "array")
      || decide (fieldTypeOf fields e.1 = some "object")) = true) := by simpa using hc
  simp [complexFields, List.filter_cons, hcb]

theorem decodeRow_encodeToDialect (dialect : String) (model : Model) :
    ∀ rec : Record,
      (∀ e ∈ rec, (fieldTypeOf model.fields e.1 = some "array" ∨
        fieldTypeOf model.fields e.1 = some "object") → e.2 ≠ JVal.null) →
      ∃ r, decodeRow model.fields (encodeToDialect dialect rec model) = some r ∧
        complexFields model.fields r = complexFields model.fields rec := by
  intro rec
  induction rec with
  | nil => intro _; exact ⟨[], rfl, rfl⟩
  | cons e rest ih =>
    intro h
    obtain ⟨r', hr', hcf⟩ := ih (fun x hx hcx => h x (List.mem_cons_of_mem _ hx) hcx)
    by_cases hc : fieldTypeOf model.fields e.1 = some "array" ∨
        fieldTypeOf model.fields e.1 = some "object"
    · have hcb : (decide (fieldTypeOf model.fields e.1 = some "array")
          || decide (fieldTypeOf model.fields e.1 = some "object")) = true := by simpa using hc
      have henc : encodeToDialect dialect (e :: rest) model
          = (e.1, .jsonText e.2) :: encodeToDialect dialect rest model := by
        simp only [encodeToDialect, List.map_cons]
        rw [if_pos hcb]
        rfl
      have hde := decodeEntry_complex model.fields e.1 e.2 hc (h e (List.mem_cons_self e rest) hc)
      refine ⟨e :: r', ?_, ?_⟩
      · rw [henc]
        simp only [decodeRow, hde, hr']
      · rw [complexFields_cons_pos model.fields e r' hc,
          complexFields_cons_pos model.fields e rest hc, hcf]
    · have hcb : ¬((decide (fieldTypeOf model.fields e.1 = some "array")
          || decide (fieldTypeOf model.fields e.1 = some "object")) = true) := by simpa using hc
      have henc : encodeToDialect dialect (e :: rest) model
          = e :: encodeToDialect dialect rest model := by
        simp only [encodeToDialect, List.map_cons]
        rw [if_neg hcb]
      have hne := decodeEntry_noncomplex_ok model.fields e hc
      cases ho : decodeEntry model.fields e with
      | none => exact absurd ho hne
      | some o =>
        cases o with
        | none =>
          refine ⟨r', ?_, ?_⟩
          · rw [henc]; simp only [decodeRow, ho, hr']
          · rw [hcf, complexFields_cons_neg model.fields e rest hc]
        | some e' =>
          have hk := decodeEntry_key model.fields e e' ho
          have hc' : ¬(fieldTypeOf model.fields e'.1 = some "array" ∨
              fieldTypeOf model.fields e'.1 = some "object") := by rw [hk]; exact hc
          refine ⟨e' :: r', ?_, ?_⟩
          · rw [henc]; simp only [decodeRow, ho, hr']
          · rw [complexFields_cons_neg model.fields e' r' hc',
              complexFields_cons_neg model.fields e rest hc, hcf]

/-- C5 (amended): for every dialect and model, decoding the encoded record
succeeds and agrees with the original on every field modeled array or
object, provided no such field holds the value null (a null-valued field
is instead dropped by decode's null-removal, as the counterexample
shows). -/
theorem transcode_roundtrip (dialect : String) (model : Model) (rec : Record)
    (h : ∀ e ∈ rec, (fieldTypeOf model.fields e.1 = some "array" ∨
        fieldTypeOf model.fields e.1 = some "object") → e.2 ≠ JVal.null) :
    ∃ r, decodeFromDialect dialect (some (encodeToDialect dialect rec model)) model
        = some (some r) ∧
      complexFields model.fields r = complexFields model.fields rec := by
  obtain ⟨r, hr, hcf⟩ := decodeRow_encodeToDialect dialect model rec h
  exact ⟨r, by simp [decodeFromDialect, hr], hcf⟩

/-- C5 counterexample: a record whose array-declared field holds the valid
JSON-serializable value null does not round trip: decode drops the field
entirely, so the decoded record differs from the original on its
array/object fields. -/
theorem transcode_roundtrip_null_cx :
    decodeFromDialect "sqlite"
        (some (encodeToDialect "sqlite" [("arr", JVal.null)] modelC5)) modelC5
      = some (some []) ∧
    complexFields modelC5.fields [] = [] ∧
    complexFields modelC5.fields [("arr", JVal.null)] = [("arr", JVal.null)] ∧
    ([] : Record) ≠ [("arr", JVal.null)] := by
  refine ⟨rfl, rfl, rfl, ?_⟩
  simp

/-- C5 witness: a concrete record with non-null array and object values
round trips on those fields. -/
theorem transcode_roundtrip_witness :
    ∃ r, decodeFromDialect "sqlite"
        (some (encodeToDialect "sqlite"
          [("arr", JVal.arr [.num 1, .num 2, .num 3]), ("obj", JVal.obj [("a", .str "b")]),
           ("str", JVal.str "x")] testModel)) testModel = some (some r) ∧
      complexFields testModel.fields r =
        complexFields testModel.fields
          [("arr", JVal.arr [.num 1, .num 2, .num 3]), ("obj", JVal.obj [("a", .str "b")]),
           ("str", JVal.str "x")] :=
  transcode_roundtrip "sqlite" testModel _ (by
    intro e he hce
    simp at he
    rcases he with rfl | rfl | rfl <;> simp)

/-- C9 (amended): for every registered table, save encodes the params
through the transcoder, hands exactly the encoded record to the backend's
create call, and resolves to the created row's raw stored values — the
encoded shape, with array/object fields holding their serialized text (the
value `[1,2,3]` is stored as the text "[1,2,3]"), not re-decoded into
application shape. -/
theorem save_resolves_encoded (tables : List (String × Model)) (dialect table : String)
    (params : Record) (model : Model) (hm : List.lookup table tables = some model) :
    _save tables dialect table params = .ok (encodeToDialect dialect params model) ∧
    renderJson (.arr [.num 1, .num 2, .num 3]) = "[1,2,3]" := by
  constructor
  · simp only [_save, hm]
  · simp [renderJson]
    rfl

/-- C9 witness: saving a record with an array field on the `testModels`
table resolves to the encoded record. -/
theorem save_resolves_encoded_witness :
    _save testTables "sqlite" "testModels" [("arr", JVal.arr [.num 1, .num 2, .num 3])]
        = .ok (encodeToDialect "sqlite" [("arr", JVal.arr [.num 1, .num 2, .num 3])] testModel) ∧
    renderJson (.arr [.num 1, .num 2, .num 3]) = "[1,2,3]" :=
  save_resolves_encoded testTables "sqlite" "testModels"
    [("arr", JVal.arr [.num 1, .num 2, .num 3])] testModel rfl

/-- C9 counterexample: the record save resolves to holds the serialized
text of the array field, not the application-shape list value, refuting
the claim that save resolves to application-shape values. -/
theorem save_returns_encoded_cx :
    _save testTables "sqlite" "testModels" [("arr", JVal.arr [.num 1, .num 2, .num 3])]
      = .ok [("arr", JVal.jsonText (.arr [.num 1, .num 2, .num 3]))] ∧
    JVal.jsonText (.arr [.num 1, .num 2, .num 3]) ≠ JVal.arr [.num 1, .num 2, .num 3] := by
  refine ⟨rfl, ?_⟩
  simp


theorem exceptBind_ok {ε α β : Type} {x : Except ε α} {f : α → Except ε β} {b : β}
    (h : (x >>= f) = .ok b) : ∃ a, x = .ok a ∧ f a = .ok b := by
  cases x with
  | error e => simp [Bind.bind, Except.bind] at h
  | ok a => exact ⟨a, rfl, by simpa [Bind.bind, Except.bind] using h⟩

theorem exceptBind_error {ε α β : Type} {x : Except ε α} {f : α → Except ε β} {e : ε}
    (h : (x >>= f) = .error e) : x = .error e ∨ ∃ a, x = .ok a ∧ f a = .error e := by
  cases x with
  | error e' =>
    left
    simpa [Bind.bind, Except.bind] using h
  | ok a =>
    right
    exact ⟨a, rfl, by simpa [Bind.bind, Except.bind] using h⟩

theorem foldlM_ok_elem {ε α β : Type} {f : β → α → Except ε β} {P : α → Prop}
    (hf : ∀ b a b', f b a = .ok b' → P a) :
    ∀ {l : List α} {b0 b : β}, l.foldlM f b0 = .ok b → ∀ a ∈ l, P a := by
  intro l
  induction l with
  | nil => intro b0 b _ a ha; simp at ha
  | cons x xs ih =>
    intro b0 b h a ha
    rw [List.foldlM_cons] at h
    obtain ⟨b1, hb1, hrest⟩ := exceptBind_ok h
    rcases List.mem_cons.mp ha with rfl | ha
    · exact hf _ _ _ hb1
    · exact ih hrest a ha

theorem foldlM_error_elem {ε α β : Type} {f : β → α → Except ε β} {P : ε → Prop}
    (hf : ∀ b a e, f b a = .error e → P e) :
    ∀ {l : List α} {b0 : β} {e : ε}, l.foldlM f b0 = .error e → P e := by
  intro l
  induction l with
  | nil => intro b0 e h; simp [List.foldlM_nil, pure, Except.pure] at h
  | cons x xs ih =>
    intro b0 e h
    rw [List.foldlM_cons] at h
    rcases exceptBind_error h with hx | ⟨b1, _, hrest⟩
    · exact hf _ _ _ hx
    · exact ih hrest

theorem processParam_ok_valid (vf : List String) (model : Model) (st st' : BuildSt)
    (kv : String × JVal) (h : processParam vf model st kv = .ok st') : paramOK vf kv := by
  obtain ⟨k, v⟩ := kv
  by_cases hd : k = "distinct"
  · subst hd
    cases v with
    | arr l => simp [paramOK]
    | str s =>
      simp only [processParam] at h
      simp only [if_true] at h
      split at h
      · simp [Bind.bind, Except.bind] at h
      · rename_i hinv
        simp only [paramOK]
        simp only [if_true]
        simp [fieldInvalidJ]
        simpa using hinv
    | null =>
      simp only [processParam] at h
      simp only [if_true] at h
      simp [Bind.bind, Except.bind] at h
    | bool b =>
      simp only [processParam] at h
      simp only [if_true] at h
      simp [Bind.bind, Except.bind] at h
    | num n =>
      simp only [processParam] at h
      simp only [if_true] at h
      simp [Bind.bind, Except.bind] at h
    | obj fs =>
      simp only [processParam] at h
      simp only [if_true] at h
      simp [Bind.bind, Except.bind] at h
    | jsonText w =>
      simp only [processParam] at h
      simp only [if_true] at h
      simp [Bind.bind, Except.bind] at h
  · cases v with
    | arr l => simp [paramOK]
    | str s =>
      simp only [processParam] at h
      rw [if_neg hd] at h
      split at h
      · simp [Bind.bind, Except.bind] at h
      · rename_i hinv
        simp only [paramOK]
        rw [if_neg hd]
        simpa using hinv
    | null =>
      simp only [processParam] at h
      rw [if_neg hd] at h
      split at h
      · simp [Bind.bind, Except.bind] at h
      · rename_i hinv
        simp only [paramOK]
        rw [if_neg hd]
        simpa using hinv
    | bool b =>
      simp only [processParam] at h
      rw [if_neg hd] at h
      split at h
      · simp [Bind.bind, Except.bind] at h
      · rename_i hinv
        simp only [paramOK]
        rw [if_neg hd]
        simpa using hinv
    | num n =>
      simp only [processParam] at h
      rw [if_neg hd] at h
      split at h
      · simp [Bind.bind, Except.bind] at h
      · rename_i hinv
        simp only [paramOK]
        rw [if_neg hd]
        simpa using hinv
    | obj fs =>
      simp only [processParam] at h
      rw [if_neg hd] at h
      split at h
      · simp [Bind.bind, Except.bind] at h
      · rename_i hinv
        simp only [paramOK]
        rw [if_neg hd]
        simpa using hinv
    | jsonText w =>
      simp only [processParam] at h
      rw [if_neg hd] at h
      split at h
      · simp [Bind.bind, Except.bind] at h
      · rename_i hinv
        simp only [paramOK]
        rw [if_neg hd]
        simpa using hinv

theorem processParam_error_names (vf : List String) (model : Model) (st : BuildSt)
    (kv : String × JVal) (e : ScanError)
    (h : processParam vf model st kv = .error e) : errNames vf e := by
  obtain ⟨k, v⟩ := kv
  by_cases hd : k = "distinct"
  · subst hd
    cases v with
    | arr l =>
      simp [Bind.bind, Except.bind, processParam] at h
      split at h <;> simp [pure, Except.pure] at h
    | str s =>
      simp only [processParam, if_true] at h
      split at h
      · rename_i hinv
        simp [Bind.bind, Except.bind] at h
        subst h
        simpa [errNames, fieldInvalidJ] using hinv
      · simp [Bind.bind, Except.bind] at h
        split at h <;> simp [pure, Except.pure] at h
    | null =>
      simp only [processParam, if_true] at h
      simp [Bind.bind, Except.bind] at h
      subst h
      simp [errNames, fieldInvalidJ]
    | bool b =>
      simp only [processParam, if_true] at h
      simp [Bind.bind, Except.bind] at h
      subst h
      simp [errNames, fieldInvalidJ]
    | num n =>
      simp only [processParam, if_true] at h
      simp [Bind.bind, Except.bind] at h
      subst h
      simp [errNames, fieldInvalidJ]
    | obj fs =>
      simp only [processParam, if_true] at h
      simp [Bind.bind, Except.bind] at h
      subst h
      simp [errNames, fieldInvalidJ]
    | jsonText w =>
      simp only [processParam, if_true] at h
      simp [Bind.bind, Except.bind] at h
      subst h
      simp [errNames, fieldInvalidJ]
  · cases v with
    | arr l =>
      simp [Bind.bind, Except.bind, processParam] at h
      split at h <;> simp [pure, Except.pure] at h
    | str s =>
      simp only [processParam] at h
      rw [if_neg hd] at h
      split at h
      · rename_i hinv
        simp [Bind.bind, Except.bind] at h
        subst h
        simpa [errNames] using hinv
      · simp [Bind.bind, Except.bind] at h
        split at h <;> simp [pure, Except.pure] at h
    | null =>
      simp only [processParam] at h
      rw [if_neg hd] at h
      split at h
      · rename_i hinv
        simp [Bind.bind, Except.bind] at h
        subst h
        simpa [errNames] using hinv
      · simp [Bind.bind, Except.bind] at h
        split at h <;> simp [pure, Except.pure] at h
    | bool b =>
      simp only [processParam] at h
      rw [if_neg hd] at h
      split at h
      · rename_i hinv
        simp [Bind.bind, Except.bind] at h
        subst h
        simpa [errNames] using hinv
      · simp [Bind.bind, Except.bind] at h
        split at h <;> simp [pure, Except.pure] at h
    | num n =>
      simp only [processParam] at h
      rw [if_neg hd] at h
      split at h
      · rename_i hinv
        simp [Bind.bind, Except.bind] at h
        subst h
        simpa [errNames] using hinv
      · simp [Bind.bind, Except.bind] at h
        split at h <;> simp [pure, Except.pure] at h
    | obj fs =>
      simp only [processParam] at h
      rw [if_neg hd] at h
      split at h
      · rename_i hinv
        simp [Bind.bind, Except.bind] at h
        subst h
        simpa [errNames] using hinv
      · simp [Bind.bind, Except.bind] at h
        split at h <;> simp [pure, Except.pure] at h
    | jsonText w =>
      simp only [processParam] at h
      rw [if_neg hd] at h
      split at h
      · rename_i hinv
        simp [Bind.bind, Except.bind] at h
        subst h
        simpa [errNames] using hinv
      · simp [Bind.bind, Except.bind] at h
        split at h <;> simp [pure, Except.pure] at h


theorem processSearchField_ok_valid (vf : List String) (kws : List JVal) (op : Op)
    (acc out : List (String × Op × JVal)) (f : String)
    (h : processSearchField vf kws op acc f = .ok out) : _fieldInvalid vf f = false := by
  simp only [processSearchField] at h
  split at h
  · simp at h
  · rename_i hinv
    simpa using hinv

theorem processSearchField_ok_out (vf : List String) (kws : List JVal) (op : Op)
    (acc out : List (String × Op × JVal)) (f : String)
    (h : processSearchField vf kws op acc f = .ok out) :
    out = acc ++ kws.map (fun kw => (f, op, kw)) := by
  simp only [processSearchField] at h
  split at h
  · simp at h
  · simp only [Except.ok.injEq] at h
    exact h.symm

theorem processSearchField_error_names (vf : List String) (kws : List JVal) (op : Op)
    (acc : List (String × Op × JVal)) (f : String) (e : ScanError)
    (h : processSearchField vf kws op acc f = .error e) : errNames vf e := by
  simp only [processSearchField] at h
  split at h
  · rename_i hinv
    simp only [Except.error.injEq] at h
    subst h
    simpa [errNames] using hinv
  · simp at h

theorem searchFold_out (vf : List String) (kws : List JVal) (op : Op) :
    ∀ (flds : List String) (acc out : List (String × Op × JVal)),
      flds.foldlM (processSearchField vf kws op) acc = .ok out →
      out = acc ++ flds.flatMap (fun f => kws.map (fun kw => (f, op, kw))) := by
  intro flds
  induction flds with
  | nil =>
    intro acc out h
    simp [List.foldlM_nil, pure, Except.pure] at h
    simp [h.symm]
  | cons f fs ih =>
    intro acc out h
    rw [List.foldlM_cons] at h
    obtain ⟨b1, hb1, hrest⟩ := exceptBind_ok h
    have hb1out := processSearchField_ok_out vf kws op acc b1 f hb1
    subst hb1out
    have := ih _ _ hrest
    simp [this, List.flatMap_cons, List.append_assoc]


theorem searchStep_ok_fields (dialect : String) (vf : List String) (st st' : BuildSt)
    (cfg : ScanConfig) (h : searchStep dialect vf st cfg = .ok st') :
    searchFieldsOK vf cfg := by
  simp only [searchFieldsOK]
  intro sp hsp fsel ksel hf hk hft hkt f hfmem
  simp only [searchStep, hsp, hf, hk] at h
  rw [if_pos (by simp [hft, hkt])] at h
  cases fsel with
  | one f1 =>
    cases ksel with
    | one kw =>
      simp only [fieldListOf, List.mem_singleton] at hfmem
      subst hfmem
      dsimp only at h
      split at h
      · simp at h
      · rename_i hinv
        simpa using hinv
    | many kws =>
      obtain ⟨orl, horl, _⟩ := exceptBind_ok h
      exact foldlM_ok_elem
        (fun b a b' hab => processSearchField_ok_valid vf _ _ b b' a hab) horl f hfmem
  | many fl =>
    cases ksel with
    | one kw =>
      obtain ⟨orl, horl, _⟩ := exceptBind_ok h
      exact foldlM_ok_elem
        (fun b a b' hab => processSearchField_ok_valid vf _ _ b b' a hab) horl f hfmem
    | many kws =>
      obtain ⟨orl, horl, _⟩ := exceptBind_ok h
      exact foldlM_ok_elem
        (fun b a b' hab => processSearchField_ok_valid vf _ _ b b' a hab) horl f hfmem

theorem searchStep_error_names (dialect : String) (vf : List String) (st : BuildSt)
    (cfg : ScanConfig) (e : ScanError)
    (h : searchStep dialect vf st cfg = .error e) : errNames vf e := by
  simp only [searchStep] at h
  split at h
  · simp at h
  · rename_i sp
    split at h
    · split at h
      · rename_i fsel ksel
        split at h
        · rename_i f1 kw
          split at h
          · rename_i hinv
            simp only [Except.error.injEq] at h
            subst h
            simpa [errNames] using hinv
          · simp at h
        · rcases exceptBind_error h with hx | ⟨orl, _, hpure⟩
          · exact foldlM_error_elem
              (fun b a e' hab => processSearchField_error_names vf _ _ b a e' hab) hx
          · simp [pure, Except.pure] at hpure
      · simp at h
    · simp at h

theorem searchStep_ok_state (dialect : String) (vf : List String) (st st' : BuildSt)
    (cfg : ScanConfig) (h : searchStep dialect vf st cfg = .ok st') :
    st'.sortKey = st.sortKey ∧ st'.sortIsCol = st.sortIsCol := by
  simp only [searchStep] at h
  split at h
  · simp only [Except.ok.injEq] at h; subst h; exact ⟨rfl, rfl⟩
  · split at h
    · split at h
      · split at h
        · split at h
          · simp at h
          · simp only [Except.ok.injEq] at h; subst h; exact ⟨rfl, rfl⟩
        · rcases exceptBind_ok h with ⟨orl, _, hpure⟩
          simp only [pure, Except.pure, Except.ok.injEq] at hpure
          subst hpure
          exact ⟨rfl, rfl⟩
      · simp only [Except.ok.injEq] at h; subst h; exact ⟨rfl, rfl⟩
    · simp only [Except.ok.injEq] at h; subst h; exact ⟨rfl, rfl⟩

theorem timeStep_state (st : BuildSt) (cfg : ScanConfig) :
    (timeStep st cfg).sortKey = st.sortKey ∧ (timeStep st cfg).sortIsCol = st.sortIsCol := by
  simp only [timeStep]
  split <;> split <;> exact ⟨rfl, rfl⟩

theorem sortByStep_ok_valid (vf : List String) (st st' : BuildSt) (cfg : ScanConfig)
    (h : sortByStep vf st cfg = .ok st') : sortByOK vf cfg := by
  intro s hs hne
  simp only [sortByStep, hs] at h
  rw [if_pos hne] at h
  split at h
  · simp at h
  · rename_i hinv
    simpa using hinv

theorem sortByStep_ok_char (vf : List String) (st st' : BuildSt) (cfg : ScanConfig)
    (h : sortByStep vf st cfg = .ok st') :
    st'.fp = st.fp ∧ st'.sortIsCol = st.sortIsCol ∧
    st'.sortKey = (match cfg.sortBy with
      | some s => if s ≠ "" then some s else st.sortKey
      | none => st.sortKey) := by
  simp only [sortByStep] at h
  split at h
  · rename_i s hs
    split at h
    · rename_i hne
      split at h
      · simp at h
      · simp only [Except.ok.injEq] at h
        subst h
        refine ⟨rfl, rfl, ?_⟩
        simp [hne]
    · rename_i hne
      simp only [Except.ok.injEq] at h
      subst h
      refine ⟨rfl, rfl, ?_⟩
      simp [hne]
  · simp only [Except.ok.injEq] at h
    subst h
    exact ⟨rfl, rfl, rfl⟩

theorem sortByStep_error_names (vf : List String) (st : BuildSt) (cfg : ScanConfig)
    (e : ScanError) (h : sortByStep vf st cfg = .error e) : errNames vf e := by
  simp only [sortByStep] at h
  split at h
  · split at h
    · split at h
      · rename_i hinv
        simp only [Except.error.injEq] at h
        subst h
        simpa [errNames] using hinv
      · simp at h
    · simp at h
  · simp at h

theorem excludeStep_state (st : BuildSt) (cfg : ScanConfig) :
    (excludeStep st cfg).sortKey = st.sortKey ∧ (excludeStep st cfg).sortIsCol = st.sortIsCol ∧
    (excludeStep st cfg).fp.whereEntries = st.fp.whereEntries ∧
    (excludeStep st cfg).fp.whereOr = st.fp.whereOr := by
  simp only [excludeStep]
  split <;> exact ⟨rfl, rfl, rfl, rfl⟩

theorem groupByStep_none (tn : String) (vf : List String) (fields : List (String × String))
    (st : BuildSt) (cfg : ScanConfig) (hg : cfg.groupBy = none) :
    groupByStep tn vf fields st cfg = st := by
  simp [groupByStep, hg]

theorem groupByStep_some (tn : String) (vf : List String) (fields : List (String × String))
    (st : BuildSt) (cfg : ScanConfig) (gs : List String) (hg : cfg.groupBy = some gs) :
    (groupByStep tn vf fields st cfg).fp.whereEntries
        = [("id", .opLit .eq (groupSubQuery tn gs))] ∧
    (groupByStep tn vf fields st cfg).fp.whereOr = none ∧
    (groupByStep tn vf fields st cfg).sortKey = st.sortKey ∧
    (groupByStep tn vf fields st cfg).sortIsCol = true := by
  simp [groupByStep, hg]

theorem orderStep_char (st : BuildSt) (cfg : ScanConfig) :
    (orderStep st cfg).whereEntries = st.fp.whereEntries ∧
    (orderStep st cfg).whereOr = st.fp.whereOr ∧
    (orderStep st cfg).order = some
      ((if st.sortIsCol then SortKeyV.colOf st.sortKey else SortKeyV.key st.sortKey),
       (if cfg.sort = some "ascending" then "ASC" else "DESC")) := by
  exact ⟨rfl, rfl, rfl⟩

theorem aggregationStep_ok_preserves (fp p : FindParams) (cfg : ScanConfig)
    (h : aggregationStep fp cfg = .ok p) :
    p.whereEntries = fp.whereEntries ∧ p.whereOr = fp.whereOr := by
  simp only [aggregationStep] at h
  split at h
  · split at h
    · split at h
      · simp only [Except.ok.injEq] at h
        subst h
        exact ⟨rfl, rfl⟩
      · simp at h
    · simp only [Except.ok.injEq] at h
      subst h
      exact ⟨rfl, rfl⟩
  · simp only [Except.ok.injEq] at h
    subst h
    exact ⟨rfl, rfl⟩

theorem aggregationStep_not_truthy (fp : FindParams) (cfg : ScanConfig)
    (h : optTruthy cfg.aggregationField = false) :
    aggregationStep fp cfg = .ok fp := by
  simp only [aggregationStep]
  split
  · rename_i f hf
    rw [hf] at h
    simp only [optTruthy] at h
    rw [if_neg (by simpa using h)]
  · rfl

theorem aggregationStep_error_typeError (fp : FindParams) (cfg : ScanConfig) (e : ScanError)
    (h : aggregationStep fp cfg = .error e) : e = .typeError := by
  simp only [aggregationStep] at h
  split at h
  · split at h
    · split at h
      · simp at h
      · simp only [Except.error.injEq] at h
        exact h.symm
    · simp at h
  · simp at h


theorem processParam_ok_char (vf : List String) (model : Model) (st st' : BuildSt)
    (kv : String × JVal) (h : processParam vf model st kv = .ok st') :
    st'.sortKey = (match indexHit model kv.1 with | some rk => rk | none => st.sortKey) ∧
    st'.sortIsCol = st.sortIsCol := by
  obtain ⟨k, v⟩ := kv
  by_cases hd : k = "distinct"
  · subst hd
    cases v with
    | arr l =>
      simp only [processParam] at h
      simp only [Bind.bind, Except.bind] at h
      split at h <;>
        (rename_i hidx
         simp only [pure, Except.pure, Except.ok.injEq] at h
         subst h
         rw [hidx]
         simp)
    | str s =>
      simp only [processParam, if_true] at h
      split at h
      · simp [Bind.bind, Except.bind] at h
      · simp only [Bind.bind, Except.bind] at h
        split at h <;>
          (rename_i hidx
           simp only [pure, Except.pure, Except.ok.injEq] at h
           subst h
           rw [hidx]
           simp)
    | null =>
      simp only [processParam, if_true] at h
      simp [Bind.bind, Except.bind] at h
    | bool b =>
      simp only [processParam, if_true] at h
      simp [Bind.bind, Except.bind] at h
    | num n =>
      simp only [processParam, if_true] at h
      simp [Bind.bind, Except.bind] at h
    | obj fs =>
      simp only [processParam, if_true] at h
      simp [Bind.bind, Except.bind] at h
    | jsonText w =>
      simp only [processParam, if_true] at h
      simp [Bind.bind, Except.bind] at h
  · cases v with
    | arr l =>
      simp only [processParam] at h
      simp only [Bind.bind, Except.bind] at h
      split at h <;>
        (rename_i hidx
         simp only [pure, Except.pure, Except.ok.injEq] at h
         subst h
         rw [hidx]
         simp)
    | str s =>
      simp only [processParam] at h
      rw [if_neg hd] at h
      split at h
      · simp [Bind.bind, Except.bind] at h
      · simp only [Bind.bind, Except.bind] at h
        split at h <;>
          (rename_i hidx
           simp only [pure, Except.pure, Except.ok.injEq] at h
           subst h
           rw [hidx]
           simp)
    | null =>
      simp only [processParam] at h
      rw [if_neg hd] at h
      split at h
      · simp [Bind.bind, Except.bind] at h
      · simp only [Bind.bind, Except.bind] at h
        split at h <;>
          (rename_i hidx
           simp only [pure, Except.pure, Except.ok.injEq] at h
           subst h
           rw [hidx]
           simp)
    | bool b =>
      simp only [processParam] at h
      rw [if_neg hd] at h
      split at h
      · simp [Bind.bind, Except.bind] at h
      · simp only [Bind.bind, Except.bind] at h
        split at h <;>
          (rename_i hidx
           simp only [pure, Except.pure, Except.ok.injEq] at h
           subst h
           rw [hidx]
           simp)
    | num n =>
      simp only [processParam] at h
      rw [if_neg hd] at h
      split at h
      · simp [Bind.bind, Except.bind] at h
      · simp only [Bind.bind, Except.bind] at h
        split at h <;>
          (rename_i hidx
           simp only [pure, Except.pure, Except.ok.injEq] at h
           subst h
           rw [hidx]
           simp)
    | obj fs =>
      simp only [processParam] at h
      rw [if_neg hd] at h
      split at h
      · simp [Bind.bind, Except.bind] at h
      · simp only [Bind.bind, Except.bind] at h
        split at h <;>
          (rename_i hidx
           simp only [pure, Except.pure, Except.ok.injEq] at h
           subst h
           rw [hidx]
           simp)
    | jsonText w =>
      simp only [processParam] at h
      rw [if_neg hd] at h
      split at h
      · simp [Bind.bind, Except.bind] at h
      · simp only [Bind.bind, Except.bind] at h
        split at h <;>
          (rename_i hidx
           simp only [pure, Except.pure, Except.ok.injEq] at h
           subst h
           rw [hidx]
           simp)


theorem paramsFold_char (vf : List String) (model : Model) :
    ∀ (l : List (String × JVal)) (st st' : BuildSt),
      l.foldlM (processParam vf model) st = .ok st' →
      st'.sortKey = l.foldl
        (fun sk kv => match indexHit model kv.1 with | some rk => rk | none => sk)
        st.sortKey ∧
      st'.sortIsCol = st.sortIsCol := by
  intro l
  induction l with
  | nil =>
    intro st st' h
    simp only [List.foldlM_nil, pure, Except.pure, Except.ok.injEq] at h
    subst h
    exact ⟨rfl, rfl⟩
  | cons kv rest ih =>
    intro st st' h
    rw [List.foldlM_cons] at h
    obtain ⟨st1, h1, hrest⟩ := exceptBind_ok h
    obtain ⟨hk1, hc1⟩ := processParam_ok_char vf model st st1 kv h1
    obtain ⟨hk2, hc2⟩ := ih st1 st' hrest
    constructor
    · rw [hk2, hk1, List.foldl_cons]
    · rw [hc2, hc1]

theorem sortFold_rel {α : Type} (f : α → Option (Option String)) :
    ∀ (l : List α) (init : Option String) (acc : Option (Option String)),
      List.foldl (fun sk kv => match f kv with | some rk => rk | none => sk)
        (match acc with | some rk => rk | none => init) l
      = (match List.foldl (fun a kv => match f kv with | some rk => some rk | none => a) acc l with
         | some rk => rk | none => init) := by
  intro l
  induction l with
  | nil => intro init acc; rfl
  | cons x xs ih =>
    intro init acc
    simp only [List.foldl_cons]
    cases hf : f x with
    | some rk => exact ih init (some rk)
    | none => exact ih init acc

theorem scanBuild_ok_decomp (pfx : String) (tables : List (String × Model)) (dialect : String)
    (cfg : ScanConfig) (model : Model) (p : FindParams)
    (hm : List.lookup cfg.table tables = some model)
    (h : _scanBuild pfx tables dialect cfg = .ok p) :
    ∃ st0 st1 st2 st4 : BuildSt,
      st0.sortKey = some "id" ∧ st0.sortIsCol = false ∧
      paramsStep (model.fields.map Prod.fst) model st0 cfg = .ok st1 ∧
      searchStep dialect (model.fields.map Prod.fst) st1 cfg = .ok st2 ∧
      sortByStep (model.fields.map Prod.fst) (timeStep st2 cfg) cfg = .ok st4 ∧
      aggregationStep (orderStep (groupByStep (pfx ++ cfg.table)
        (model.fields.map Prod.fst) model.fields (excludeStep st4 cfg) cfg) cfg) cfg = .ok p := by
  simp only [_scanBuild, hm] at h
  obtain ⟨st1, h1, h2⟩ := exceptBind_ok h
  obtain ⟨st2, h3, h4⟩ := exceptBind_ok h2
  obtain ⟨st4, h5, h6⟩ := exceptBind_ok h4
  exact ⟨_, st1, st2, st4, rfl, rfl, h1, h3, h5, h6⟩

theorem scanBuild_error_decomp (pfx : String) (tables : List (String × Model)) (dialect : String)
    (cfg : ScanConfig) (model : Model) (e : ScanError)
    (hm : List.lookup cfg.table tables = some model)
    (h : _scanBuild pfx tables dialect cfg = .error e) :
    (∃ st0, paramsStep (model.fields.map Prod.fst) model st0 cfg = .error e) ∨
    (∃ st1, searchStep dialect (model.fields.map Prod.fst) st1 cfg = .error e) ∨
    (∃ st3, sortByStep (model.fields.map Prod.fst) st3 cfg = .error e) ∨
    (∃ fp, aggregationStep fp cfg = .error e) := by
  simp only [_scanBuild, hm] at h
  rcases exceptBind_error h with h1 | ⟨st1, _, h2⟩
  · exact Or.inl ⟨_, h1⟩
  rcases exceptBind_error h2 with h3 | ⟨st2, _, h4⟩
  · exact Or.inr (Or.inl ⟨st1, h3⟩)
  rcases exceptBind_error h4 with h5 | ⟨st4, _, h6⟩
  · exact Or.inr (Or.inr (Or.inl ⟨_, h5⟩))
  · exact Or.inr (Or.inr (Or.inr ⟨_, h6⟩))


/-- C1 (amended): on a registered table, every scalar non-distinct parameter
name, the value of the scalar `distinct` pseudo-parameter, every field of an
active search spec (both field and keyword present and truthy), and a truthy
`sortBy` must belong to the model's field set — when the builder succeeds all
those names are valid, and every "invalid field" error it raises names an
identifier that is indeed not a model field; the backend is only queried on
success.  List-valued parameters are exempt: their names pass through
unvalidated, as the counterexample shows. -/
theorem scan_field_validation (pfx : String) (tables : List (String × Model)) (dialect : String)
    (cfg : ScanConfig) (model : Model)
    (hm : List.lookup cfg.table tables = some model) :
    (∀ p, _scanBuild pfx tables dialect cfg = .ok p →
      paramsOK (model.fields.map Prod.fst) cfg ∧
      searchFieldsOK (model.fields.map Prod.fst) cfg ∧
      sortByOK (model.fields.map Prod.fst) cfg) ∧
    (∀ e, _scanBuild pfx tables dialect cfg = .error e →
      errNames (model.fields.map Prod.fst) e) := by
  constructor
  · intro p h
    obtain ⟨st0, st1, st2, st4, _, _, h1, h2, h4, _⟩ :=
      scanBuild_ok_decomp pfx tables dialect cfg model p hm h
    refine ⟨?_, searchStep_ok_fields dialect _ st1 st2 cfg h2,
      sortByStep_ok_valid _ _ st4 cfg h4⟩
    intro kv hkv
    cases hps : cfg.params with
    | none => rw [hps] at hkv; simp at hkv
    | some ps =>
      simp only [paramsStep, hps] at h1
      rw [hps] at hkv
      simp only [Option.getD_some] at hkv
      exact foldlM_ok_elem
        (fun b a b' hab => processParam_ok_valid _ model b b' a hab) h1 kv hkv
  · intro e h
    rcases scanBuild_error_decomp pfx tables dialect cfg model e hm h with
      ⟨st0, hp⟩ | ⟨st1, hs⟩ | ⟨st3, hb⟩ | ⟨fp, ha⟩
    · cases hps : cfg.params with
      | none => simp [paramsStep, hps] at hp
      | some ps =>
        simp only [paramsStep, hps] at hp
        exact foldlM_error_elem
          (fun b a e' hab => processParam_error_names _ model b a e' hab) hp
    · exact searchStep_error_names dialect _ st1 cfg e hs
    · exact sortByStep_error_names _ st3 cfg e hb
    · rw [aggregationStep_error_typeError fp cfg e ha]
      simp [errNames]

/-- C10: whenever `groupBy` is an array, the where clause of the built plan
is exactly the single predicate `id = (correlated max-id-per-group subquery)`
— every filter accumulated earlier from params, search and the time range is
discarded (the equality holds for every request configuration). -/
theorem groupBy_replaces_where (pfx : String) (tables : List (String × Model)) (dialect : String)
    (cfg : ScanConfig) (model : Model) (gs : List String) (p : FindParams)
    (hm : List.lookup cfg.table tables = some model)
    (hg : cfg.groupBy = some gs)
    (h : _scanBuild pfx tables dialect cfg = .ok p) :
    p.whereEntries = [("id", .opLit .eq (groupSubQuery (pfx ++ cfg.table) gs))] ∧
    p.whereOr = none := by
  obtain ⟨st0, st1, st2, st4, _, _, h1, h2, h4, hrest⟩ :=
    scanBuild_ok_decomp pfx tables dialect cfg model p hm h
  obtain ⟨hwe, hwo⟩ := aggregationStep_ok_preserves _ _ _ hrest
  obtain ⟨ho1, ho2, _⟩ := orderStep_char (groupByStep (pfx ++ cfg.table)
    (model.fields.map Prod.fst) model.fields (excludeStep st4 cfg) cfg) cfg
  obtain ⟨hg1, hg2, _, _⟩ := groupByStep_some (pfx ++ cfg.table)
    (model.fields.map Prod.fst) model.fields (excludeStep st4 cfg) cfg gs hg
  constructor
  · rw [hwe, ho1, hg1]
  · rw [hwo, ho2, hg2]


/-- C8 (amended): for every scan request that does not carry a truthy
`aggregationField`, the built plan's order is exactly the claimed resolution:
sort key "id" by default, overridden by the range key of an index-matching
filter parameter, then by an explicit `sortBy`, and rebound to a column
expression by grouping; direction descending unless `sort` is "ascending".
An `aggregationField` request instead deletes the order entirely, as the
counterexample shows. -/
theorem scan_sort_resolution (pfx : String) (tables : List (String × Model)) (dialect : String)
    (cfg : ScanConfig) (model : Model) (p : FindParams)
    (hm : List.lookup cfg.table tables = some model)
    (hagg : optTruthy cfg.aggregationField = false)
    (h : _scanBuild pfx tables dialect cfg = .ok p) :
    p.order = some (claimSortExpr model cfg, claimSortDir cfg) := by
  obtain ⟨st0, st1, st2, st4, hsk0, hsc0, h1, h2, h4, hrest⟩ :=
    scanBuild_ok_decomp pfx tables dialect cfg model p hm h
  set st6 := groupByStep (pfx ++ cfg.table) (model.fields.map Prod.fst) model.fields
    (excludeStep st4 cfg) cfg with hst6
  rw [aggregationStep_not_truthy (orderStep st6 cfg) cfg hagg] at hrest
  have hp : p = orderStep st6 cfg := by
    simp only [Except.ok.injEq] at hrest
    exact hrest.symm
  have hfold : st1.sortKey = (cfg.params.getD []).foldl
      (fun sk kv => match indexHit model kv.1 with | some rk => rk | none => sk)
      (some "id") ∧ st1.sortIsCol = false := by
    cases hps : cfg.params with
    | none =>
      simp only [paramsStep, hps] at h1
      simp only [Except.ok.injEq] at h1
      subst h1
      simp [hsk0, hsc0]
    | some ps =>
      simp only [paramsStep, hps] at h1
      obtain ⟨ha, hb⟩ := paramsFold_char _ model ps st0 st1 h1
      simp only [Option.getD_some]
      rw [ha, hb, hsk0, hsc0]
      exact ⟨rfl, rfl⟩
  obtain ⟨hfk, hfc⟩ := hfold
  obtain ⟨hsk2, hsc2⟩ := searchStep_ok_state dialect _ st1 st2 cfg h2
  obtain ⟨htk, htc⟩ := timeStep_state st2 cfg
  obtain ⟨hfp4, hsc4, hsk4⟩ := sortByStep_ok_char _ (timeStep st2 cfg) st4 cfg h4
  obtain ⟨hek, hec, _, _⟩ := excludeStep_state st4 cfg
  have hKey : st4.sortKey = claimSortKeyName model cfg := by
    rw [hsk4, htk, hsk2, hfk]
    have hrel := sortFold_rel (fun kv : String × JVal => indexHit model kv.1)
      (cfg.params.getD []) (some "id") none
    simp only [claimSortKeyName]
    cases hsb : cfg.sortBy with
    | some s =>
      by_cases hne : s ≠ ""
      · simp [hne]
      · simp only [if_neg hne]
        exact hrel
    | none =>
      exact hrel
  have hsk6 : st6.sortKey = st4.sortKey := by
    cases hgb : cfg.groupBy with
    | none =>
      rw [hst6, groupByStep_none _ _ _ _ _ hgb]
      exact hek
    | some gs =>
      obtain ⟨_, _, hsk, _⟩ := groupByStep_some (pfx ++ cfg.table)
        (model.fields.map Prod.fst) model.fields (excludeStep st4 cfg) cfg gs hgb
      rw [hst6, hsk]
      exact hek
  have hsc6 : st6.sortIsCol = cfg.groupBy.isSome := by
    cases hgb : cfg.groupBy with
    | none =>
      rw [hst6, groupByStep_none _ _ _ _ _ hgb, hec, hsc4, htc, hsc2, hfc]
      rfl
    | some gs =>
      obtain ⟨_, _, _, hcol⟩ := groupByStep_some (pfx ++ cfg.table)
        (model.fields.map Prod.fst) model.fields (excludeStep st4 cfg) cfg gs hgb
      rw [hst6, hcol]
      rfl
  obtain ⟨_, _, hord⟩ := orderStep_char st6 cfg
  rw [hp, hord, hsk6, hKey, hsc6]
  simp only [claimSortExpr, claimSortDir]


/-- C4 (amended): the integer degradation of the search operator is decided
once for the whole search from the first keyword only, and only in the
list branch: when `field` or `keyword` is a list, every (field, keyword)
disjunct uses exact equality if the first keyword is an integer and the
pattern operator otherwise; a single-field single-keyword search always
uses the pattern operator, never degrading. -/
theorem search_integer_degrade (dialect : String) (vf : List String) (st st' : BuildSt)
    (cfg : ScanConfig) (sp : SearchSpec) (fsel : FieldSel) (ksel : KeywordSel)
    (hsp : cfg.search = some sp) (hf : sp.field = some fsel) (hk : sp.keyword = some ksel)
    (hft : fieldSelTruthy fsel = true) (hkt : keywordSelTruthy ksel = true)
    (h : searchStep dialect vf st cfg = .ok st') :
    (¬(∃ f1 kw, fsel = .one f1 ∧ ksel = .one kw) →
      st'.fp.whereOr = some ((fieldListOf fsel).flatMap (fun f =>
        (keywordListOf ksel).map (fun kw =>
          (f, (if isIntegerKeyword (keywordListOf ksel).head? then Op.eq
               else searchOperatorFor dialect sp.inverse), kw))))) ∧
    (∀ f1 kw, fsel = .one f1 → ksel = .one kw →
      st'.fp.whereEntries = setKey st.fp.whereEntries f1
        (.ops [(searchOperatorFor dialect sp.inverse, kw)])) := by
  simp only [searchStep, hsp, hf, hk] at h
  rw [if_pos (by simp [hft, hkt])] at h
  constructor
  · intro hmulti
    cases fsel with
    | one f1 =>
      cases ksel with
      | one kw => exact absurd ⟨f1, kw, rfl, rfl⟩ hmulti
      | many kws =>
        obtain ⟨orl, horl, hpure⟩ := exceptBind_ok h
        have hout := searchFold_out vf _ _ _ _ _ horl
        simp only [pure, Except.pure, Except.ok.injEq] at hpure
        subst hpure
        simp only [List.nil_append] at hout
        simp [hout]
    | many fl =>
      cases ksel with
      | one kw =>
        obtain ⟨orl, horl, hpure⟩ := exceptBind_ok h
        have hout := searchFold_out vf _ _ _ _ _ horl
        simp only [pure, Except.pure, Except.ok.injEq] at hpure
        subst hpure
        simp only [List.nil_append] at hout
        simp [hout]
      | many kws =>
        obtain ⟨orl, horl, hpure⟩ := exceptBind_ok h
        have hout := searchFold_out vf _ _ _ _ _ horl
        simp only [pure, Except.pure, Except.ok.injEq] at hpure
        subst hpure
        simp only [List.nil_append] at hout
        simp [hout]
  · intro f1 kw hf1 hkw
    subst hf1
    subst hkw
    dsimp only at h
    split at h
    · simp at h
    · simp only [Except.ok.injEq] at h
      subst h
      rfl

/-- C3: the inverse flag negates the pattern operator — NOT ILIKE on the
postgres dialect and NOT LIKE otherwise — and the claim's scenario holds:
scanning `testModels` on a non-postgres dialect searching `name` for
"%foo%" with `inverse` builds the filter `name NOT LIKE "%foo%"`.
The operator selection is modelled from the spec (`searchOperatorFor`),
as the provided source revision lacks the inverse branch that the
repository's tests exercise. -/
theorem scan_search_inverse (dialect : String) :
    searchOperatorFor dialect true
      = (if dialect = "postgres" then Op.notILike else Op.notLike) ∧
    _scanBuild "" testTables "sqlite"
        { table := "testModels",
          search := some { field := some (.one "name"),
                           keyword := some (.one (.str "%foo%")),
                           inverse := true } }
      = .ok { whereEntries := [("name", .ops [(.notLike, .str "%foo%")])],
              order := some (.key (some "id"), "DESC") } := by
  constructor
  · simp [searchOperatorFor]
  · rfl

/-- C2: a scalar parameter value carrying an inequality token becomes a
relational comparison predicate with the textual remainder as comparand
(never coerced to a number and never a plain equality), shown for the
spec-modelled condition builder, for the parameter-processing step on a
valid field, and end to end for the request of the repository's test suite
(`id: "gt:5"` filters `id GT "5"`). -/
theorem scan_inequality_param (s : String) (o : Op) (rest : String)
    (htok : inequalityTok s = some (o, rest)) :
    scalarParamCond (.str s) = .ops [(o, .str rest)] ∧
    (∀ st : BuildSt, processParam (testModel.fields.map Prod.fst) testModel st ("str", .str s)
        = .ok { st with fp := { st.fp with
            whereEntries := setKey st.fp.whereEntries "str" (.ops [(o, .str rest)]) } }) ∧
    Except.map (fun p => p.whereEntries)
        (_scanBuild "" testTables "sqlite"
          { table := "testModels", params := some [("name", .str "foo"), ("id", .str "gt:5")] })
      = .ok [("name", .plain (.str "foo")), ("id", .ops [(.gt, .str "5")])] := by
  refine ⟨?_, ?_, ?_⟩
  · simp [scalarParamCond, htok]
  · intro st
    simp [processParam, scalarParamCond, htok, _fieldInvalid, indexHit, testModel, testFields,
      Bind.bind, Except.bind, pure, Except.pure]
  · rfl

/-- C1 counterexample: a scan whose only parameter is list-valued with a
name outside the model's field set succeeds — the plan's where clause keys
include the invalid name and the backend is queried — refuting the claim
that list-valued parameter names are validated. -/
theorem scan_list_param_not_validated_cx :
    Except.map (fun p => p.whereEntries.map Prod.fst)
        (_scanBuild "" testTables "sqlite"
          { table := "testModels", params := some [("banana", .arr [.num 1, .num 2, .num 3])] })
      = .ok ["banana"] ∧
    _fieldInvalid (testModel.fields.map Prod.fst) "banana" = true :=
  ⟨rfl, rfl⟩

/-- C1 witness: the validation theorem applied to a concrete valid request
on the `testModels` fixture. -/
theorem scan_field_validation_witness :
    (∀ p, _scanBuild "" testTables "sqlite"
        { table := "testModels", params := some [("name", JVal.str "foo")],
          sortBy := some "str" } = .ok p →
      paramsOK (testModel.fields.map Prod.fst)
        { table := "testModels", params := some [("name", JVal.str "foo")],
          sortBy := some "str" } ∧
      searchFieldsOK (testModel.fields.map Prod.fst)
        { table := "testModels", params := some [("name", JVal.str "foo")],
          sortBy := some "str" } ∧
      sortByOK (testModel.fields.map Prod.fst)
        { table := "testModels", params := some [("name", JVal.str "foo")],
          sortBy := some "str" }) ∧
    (∀ e, _scanBuild "" testTables "sqlite"
        { table := "testModels", params := some [("name", JVal.str "foo")],
          sortBy := some "str" } = .error e →
      errNames (testModel.fields.map Prod.fst) e) :=
  scan_field_validation "" testTables "sqlite"
    { table := "testModels", params := some [("name", JVal.str "foo")], sortBy := some "str" }
    testModel rfl

/-- C2 witness: the inequality-token theorem applied to the concrete value
"lt:abc". -/
theorem scan_inequality_param_witness :
    scalarParamCond (.str "lt:abc") = .ops [(.lt, .str "abc")] ∧
    (∀ st : BuildSt, processParam (testModel.fields.map Prod.fst) testModel st
        ("str", .str "lt:abc")
        = .ok { st with fp := { st.fp with
            whereEntries := setKey st.fp.whereEntries "str" (.ops [(.lt, .str "abc")]) } }) ∧
    Except.map (fun p => p.whereEntries)
        (_scanBuild "" testTables "sqlite"
          { table := "testModels", params := some [("name", .str "foo"), ("id", .str "gt:5")] })
      = .ok [("name", .plain (.str "foo")), ("id", .ops [(.gt, .str "5")])] :=
  scan_inequality_param "lt:abc" .lt "abc" rfl

/-- C4 counterexample: a search whose keyword list starts with an integer
degrades every pair to exact equality — including the pair whose keyword
"%foo%" is not an integer — refuting the per-pair degradation claim. -/
theorem search_integer_degrade_cx :
    Except.map (fun p => p.whereOr)
        (_scanBuild "" testTables "sqlite"
          { table := "testModels",
            search := some { field := some (.many ["name"]),
                             keyword := some (.many [.num 5, .str "%foo%"]) } })
      = .ok (some [("name", Op.eq, JVal.num 5), ("name", Op.eq, JVal.str "%foo%")]) ∧
    Op.eq ≠ Op.like :=
  ⟨rfl, by decide⟩

/-- C4 witness: the degradation theorem applied to a concrete two-field
two-keyword search whose first keyword is an integer. -/
theorem search_integer_degrade_witness :
    (¬(∃ f1 kw, (FieldSel.many ["name", "namespace"]) = .one f1 ∧
        (KeywordSel.many [JVal.num 5, JVal.str "%b%"]) = .one kw) →
      ({ fp := { whereOr := some [("name", Op.eq, JVal.num 5), ("name", Op.eq, JVal.str "%b%"),
            ("namespace", Op.eq, JVal.num 5), ("namespace", Op.eq, JVal.str "%b%")] },
         sortKey := some "id" } : BuildSt).fp.whereOr
        = some [("name", Op.eq, JVal.num 5), ("name", Op.eq, JVal.str "%b%"),
            ("namespace", Op.eq, JVal.num 5), ("namespace", Op.eq, JVal.str "%b%")]) ∧
    (∀ f1 kw, (FieldSel.many ["name", "namespace"]) = .one f1 →
      (KeywordSel.many [JVal.num 5, JVal.str "%b%"]) = .one kw →
      ({ fp := { whereOr := some [("name", Op.eq, JVal.num 5), ("name", Op.eq, JVal.str "%b%"),
            ("namespace", Op.eq, JVal.num 5), ("namespace", Op.eq, JVal.str "%b%")] },
         sortKey := some "id" } : BuildSt).fp.whereEntries
        = setKey (({ fp := {}, sortKey := some "id" } : BuildSt)).fp.whereEntries f1
            (.ops [(searchOperatorFor "sqlite"
              ({ field := some (.many ["name", "namespace"]),
                 keyword := some (.many [JVal.num 5, JVal.str "%b%"]) } : SearchSpec).inverse, kw)])) :=
  search_integer_degrade "sqlite" (testModel.fields.map Prod.fst)
    { fp := {}, sortKey := some "id" }
    { fp := { whereOr := some [("name", Op.eq, JVal.num 5), ("name", Op.eq, JVal.str "%b%"),
        ("namespace", Op.eq, JVal.num 5), ("namespace", Op.eq, JVal.str "%b%")] },
      sortKey := some "id" }
    { table := "testModels",
      search := some { field := some (.many ["name", "namespace"]),
                       keyword := some (.many [JVal.num 5, JVal.str "%b%"]) } }
    { field := some (.many ["name", "namespace"]),
      keyword := some (.many [JVal.num 5, JVal.str "%b%"]) }
    (.many ["name", "namespace"]) (.many [JVal.num 5, JVal.str "%b%"])
    rfl rfl rfl rfl rfl rfl

/-- C8 counterexample: a request with an `aggregationField` and no `sort`
option produces a plan with no order at all, refuting the claim that every
scan request sorts descending unless told "ascending". -/
theorem sort_aggregation_drops_order_cx :
    Except.map (fun p => p.order)
        (_scanBuild "" testTables "sqlite"
          { table := "jobs", aggregationField := some "templateId" })
      = .ok none ∧
    ({ table := "jobs", aggregationField := some "templateId" } : ScanConfig).sort
      ≠ some "ascending" :=
  ⟨rfl, by simp⟩

/-- C8 witness: the sort-resolution theorem applied to a concrete `jobs`
request whose `name` filter triggers the index range key, ascending. -/
theorem scan_sort_resolution_witness :
    ({ whereEntries := [("name", WhereVal.plain (JVal.str "bar"))],
       order := some (SortKeyV.key (some "name"), "ASC") } : FindParams).order
      = some (claimSortExpr jobModel
          { table := "jobs", params := some [("name", JVal.str "bar")],
            sort := some "ascending" },
        claimSortDir
          { table := "jobs", params := some [("name", JVal.str "bar")],
            sort := some "ascending" }) :=
  scan_sort_resolution "" testTables "sqlite"
    { table := "jobs", params := some [("name", JVal.str "bar")], sort := some "ascending" }
    jobModel
    { whereEntries := [("name", WhereVal.plain (JVal.str "bar"))],
      order := some (SortKeyV.key (some "name"), "ASC") }
    rfl rfl rfl

/-- C10 witness: the where-replacement theorem applied to a concrete
grouped request whose `name` filter would otherwise constrain the query. -/
theorem groupBy_replaces_where_witness :
    ({ whereEntries := [("id", WhereVal.opLit .eq
          { tableName := "jobs", tableAs := "t",
            attributes := [.fn "MAX" (.col "t.id")],
            whereConds := [("id", .gte, .col "jobs.id"), ("name", .eq, .col "jobs.name")] })],
       attributes := some { items := some [AttrItem.aliased (ColExpr.col "id") "id",
                              AttrItem.aliased (ColExpr.col "name") "name"],
                            exclude := none },
       order := some (SortKeyV.colOf (some "name"), "DESC") } : FindParams).whereEntries
      = [("id", WhereVal.opLit .eq (groupSubQuery "jobs" ["name"]))] ∧
    ({ whereEntries := [("id", WhereVal.opLit .eq
          { tableName := "jobs", tableAs := "t",
            attributes := [.fn "MAX" (.col "t.id")],
            whereConds := [("id", .gte, .col "jobs.id"), ("name", .eq, .col "jobs.name")] })],
       attributes := some { items := some [AttrItem.aliased (ColExpr.col "id") "id",
                              AttrItem.aliased (ColExpr.col "name") "name"],
                            exclude := none },
       order := some (SortKeyV.colOf (some "name"), "DESC") } : FindParams).whereOr = none :=
  groupBy_replaces_where "" testTables "sqlite"
    { table := "jobs", params := some [("name", JVal.str "b")], groupBy := some ["name"] }
    jobModel ["name"]
    { whereEntries := [("id", WhereVal.opLit .eq
          { tableName := "jobs", tableAs := "t",
            attributes := [.fn "MAX" (.col "t.id")],
            whereConds := [("id", .gte, .col "jobs.id"), ("name", .eq, .col "jobs.name")] })],
      attributes := some { items := some [AttrItem.aliased (ColExpr.col "id") "id",
                             AttrItem.aliased (ColExpr.col "name") "name"],
                           exclude := none },
      order := some (SortKeyV.colOf (some "name"), "DESC") }
    rfl rfl rfl

end Squeakquel
